import Mathlib

/-!
Verification of the tree-difference renderer (`cli/src/diff_util.rs`).

Byte contents are modelled as `List Nat` (one `Nat` per byte, newline = 10).
The lower-level LCS/Myers line and word differ (`Diff::by_line`, `Diff::by_word`
from `jj_lib::diff`) is an external collaborator producing `Matching`/`Different`
hunks; functions that consume it are parameterized by the hunk sequence (or by a
differ function) so every theorem quantifies over all possible differ outputs.
-/

namespace DiffUtil

/-- Byte string: one `Nat` per byte. -/
abbrev Content := List Nat

/-- Helper to write byte contents readably. -/
def bytes (s : String) : Content := s.toList.map Char.toNat

/-- `content.ends_with(b"\n")`. -/
def endsNL (c : Content) : Bool := c.getLast? = some 10

/-- Accumulator-style worker for `split_inclusive(|b| *b == b'\n')`:
chunks end just after each newline byte; a final chunk without a newline is
kept; the empty content yields no chunks. -/
def splitInclusiveGo : Content → Content → List Content
  | cur, [] => if cur.isEmpty then [] else [cur.reverse]
  | cur, b :: rest =>
    if b = 10 then (b :: cur).reverse :: splitInclusiveGo [] rest
    else splitInclusiveGo (b :: cur) rest

/-- Rust's `content.split_inclusive(|b| *b == b'\n')` collected to a list. -/
def splitInclusive (c : Content) : List Content := splitInclusiveGo [] c

/-- `FileContent { is_binary, contents }` (`diff_util.rs` lines 556-560). -/
structure FileContent where
  is_binary : Bool
  contents : Content
deriving DecidableEq, Repr

/-- `FileContent::empty()`. -/
def FileContent.empty : FileContent := ⟨false, []⟩

/-- `FileContent::is_empty`. -/
def FileContent.isEmptyContent (fc : FileContent) : Bool := fc.contents.isEmpty

/-- `PEEK_SIZE` (`diff_util.rs` line 579). -/
def PEEK_SIZE : Nat := 8000

/-- `file_content_for_diff` (`diff_util.rs` lines 575-591): the reader is
modelled by the byte list it yields via `read_to_end`.  `start` is
`&contents[..PEEK_SIZE.min(contents.len())]` and `is_binary` is
`start.contains(&b'\0')`. -/
def file_content_for_diff (contents : Content) : FileContent :=
  let start := contents.take (min PEEK_SIZE contents.length)
  { is_binary := start.contains 0, contents := contents }

/-- Claim C4: for every byte content read by `file_content_for_diff`, the
returned `is_binary` flag is true iff a NUL byte occurs within the first 8000
bytes of the content, and contents shorter than 8000 bytes are scanned in
full. -/
theorem file_content_for_diff_is_binary_iff_nul_in_first_8000 (contents : Content) :
    ((file_content_for_diff contents).is_binary = true ↔ 0 ∈ contents.take 8000) ∧
    (contents.length ≤ 8000 →
      ((file_content_for_diff contents).is_binary = true ↔ 0 ∈ contents)) := by
  have htake : contents.take (min PEEK_SIZE contents.length) = contents.take 8000 := by
    rw [List.take_eq_take]
    simp [PEEK_SIZE, Nat.min_assoc]
  constructor
  · simp [file_content_for_diff, htake]
  · intro hlen
    simp [file_content_for_diff, htake, List.take_of_length_le hlen]

/-- Witness for C4 at a concrete input: a NUL at offset 1 of a 3-byte file is
detected. -/
theorem file_content_for_diff_is_binary_witness :
    (file_content_for_diff [97, 0, 98]).is_binary = true :=
  (file_content_for_diff_is_binary_iff_nul_in_first_8000 [97, 0, 98]).1.mpr (by decide)

/-! ## Color-words context compression (`diff_util.rs` lines 397-554)

Output is modelled as a trace of events: a printed diff line (with the line
numbers it is printed with), the ellipsis line `    ...`, or the final
newline written by `writeln!(formatter)` at the end of
`show_color_words_diff_hunks`. -/

/-- `DiffLineNumber { left, right }` (from `jj_lib::files`). -/
structure DiffLineNumber where
  left : Nat
  right : Nat
deriving DecidableEq, Repr

/-- One observable output item of the color-words hunk renderer. -/
inductive CWEvent where
  | line (ln : DiffLineNumber) (content : Content)
  | ellipsis
  | newline
deriving DecidableEq, Repr

/-- The `for line in lines { show_color_words_diff_line(...); line_number += 1 }`
pattern of `show_color_words_context_lines`: prints each line at the current
cursor and increments both sides by 1 per line. -/
def printContextLines : List Content → DiffLineNumber → List CWEvent × DiffLineNumber
  | [], ln => ([], ln)
  | l :: rest, ln =>
    let r := printContextLines rest ⟨ln.left + 1, ln.right + 1⟩
    (CWEvent.line ln l :: r.1, r.2)

/-- `show_color_words_context_lines` (`diff_util.rs` lines 472-508).
Prints at most `numAfter` leading lines, then (when lines beyond the last
`numBefore + 1` remain) the ellipsis, then the trailing lines.  `beforeTaken`
models `lines.by_ref().rev().take(num_before + 1).collect_vec()` (the last
`numBefore + 1` remaining lines, in reverse order); `numSkipped` models the
`lines.count()` of whatever the iterator still holds; `pop()` on the vector is
`dropLast`.  Returns the events, the updated cursor, and `num_skipped > 0`. -/
def show_color_words_context_lines (content : Content) (ln : DiffLineNumber)
    (numAfter numBefore : Nat) : List CWEvent × DiffLineNumber × Bool :=
  let lines := splitInclusive content
  let r1 := printContextLines (lines.take numAfter) ln
  let rest := lines.drop numAfter
  let beforeTaken := rest.reverse.take (numBefore + 1)
  let numSkipped := rest.length - beforeTaken.length
  if numSkipped > 0 then
    let ln1 : DiffLineNumber :=
      ⟨r1.2.left + numSkipped + 1, r1.2.right + numSkipped + 1⟩
    let r2 := printContextLines beforeTaken.dropLast.reverse ln1
    (r1.1 ++ [CWEvent.ellipsis] ++ r2.1, r2.2, true)
  else
    let r2 := printContextLines beforeTaken.reverse r1.2
    (r1.1 ++ r2.1, r2.2, false)

/-- The `num_skipped` quantity computed by `show_color_words_context_lines`. -/
def num_skipped (content : Content) (na nb : Nat) : Nat :=
  ((splitInclusive content).drop na).length -
    (((splitInclusive content).drop na).reverse.take (nb + 1)).length

/-- Number of printed (non-ellipsis, non-newline) lines in a trace. -/
def countLineEvents (evs : List CWEvent) : Nat :=
  evs.countP fun e => match e with | .line _ _ => true | _ => false

theorem printContextLines_final (ls : List Content) (ln : DiffLineNumber) :
    (printContextLines ls ln).2 = ⟨ln.left + ls.length, ln.right + ls.length⟩ := by
  induction ls generalizing ln with
  | nil => simp [printContextLines]
  | cons l rest ih =>
    simp only [printContextLines, ih]
    simp only [DiffLineNumber.mk.injEq, List.length_cons]
    omega

theorem countLineEvents_printContextLines (ls : List Content) (ln : DiffLineNumber) :
    countLineEvents (printContextLines ls ln).1 = ls.length := by
  induction ls generalizing ln with
  | nil => simp [printContextLines, countLineEvents]
  | cons l rest ih =>
    simp only [printContextLines, countLineEvents, List.countP_cons] at *
    simp [ih]

theorem countLineEvents_append (a b : List CWEvent) :
    countLineEvents (a ++ b) = countLineEvents a + countLineEvents b := by
  simp [countLineEvents, List.countP_append]

theorem countLineEvents_ellipsis_cons (l : List CWEvent) :
    countLineEvents (CWEvent.ellipsis :: l) = countLineEvents l := by
  simp [countLineEvents, List.countP_cons]

theorem countLineEvents_nil : countLineEvents [] = 0 := by
  simp [countLineEvents]

/-- Claim C5: the cursor returned by `show_color_words_context_lines` advances
by exactly 1 on both sides per printed context line and by `num_skipped + 1`
on both sides when the ellipsis is emitted; the skip flag is set iff lines
were skipped.  In particular, for a 20-line matching block between two changes
with context 3 (a middle block, so `num_after = num_before = 3`), exactly 3
lines are printed, then the ellipsis, then 3 lines, and the line number jumps
by 14 (= 13 skipped + 1) across the ellipsis. -/
theorem show_color_words_context_lines_cursor (content : Content)
    (ln : DiffLineNumber) (na nb : Nat) :
    ((show_color_words_context_lines content ln na nb).2.1.left =
      ln.left + countLineEvents (show_color_words_context_lines content ln na nb).1 +
        (if (show_color_words_context_lines content ln na nb).2.2 then
          num_skipped content na nb + 1 else 0)) ∧
    ((show_color_words_context_lines content ln na nb).2.1.right =
      ln.right + countLineEvents (show_color_words_context_lines content ln na nb).1 +
        (if (show_color_words_context_lines content ln na nb).2.2 then
          num_skipped content na nb + 1 else 0)) ∧
    ((show_color_words_context_lines content ln na nb).2.2 =
      decide (0 < num_skipped content na nb)) ∧
    (show_color_words_context_lines ((List.replicate 20 (bytes "a\n")).flatten)
        ⟨1, 1⟩ 3 3 =
      ([CWEvent.line ⟨1, 1⟩ (bytes "a\n"), CWEvent.line ⟨2, 2⟩ (bytes "a\n"),
        CWEvent.line ⟨3, 3⟩ (bytes "a\n"), CWEvent.ellipsis,
        CWEvent.line ⟨18, 18⟩ (bytes "a\n"), CWEvent.line ⟨19, 19⟩ (bytes "a\n"),
        CWEvent.line ⟨20, 20⟩ (bytes "a\n")], ⟨21, 21⟩, true)) := by
  refine ⟨?_, ?_, ?_, by decide⟩ <;>
  · simp only [show_color_words_context_lines, num_skipped]
    split <;> rename_i h <;>
      simp only [List.length_reverse, List.length_take, List.length_drop] at h <;>
      simp [printContextLines_final, countLineEvents_append,
        countLineEvents_ellipsis_cons, countLineEvents_nil,
        countLineEvents_printContextLines, List.length_reverse,
        List.length_take, List.length_drop, h] <;>
      omega

/-! ## Color-words hunk renderer (`diff_util.rs` lines 397-469)

`Diff::by_line([left, right])` is external; its hunk sequence is taken as an
input.  The `DiffHunk::Different` branch (word diff + `DiffLineIterator`, both
external) is a parameter `wordDiff` mapping the two sides and the incoming
cursor to the emitted events and the iterator's `next_line_number()`. -/

/-- `DiffHunk` of the external differ, specialized to two inputs:
`Matching(content)` or `Different([left, right])`. -/
inductive DiffHunk where
  | Matching (content : Content)
  | Different (left right : Content)
deriving DecidableEq, Repr

/-- The `while let Some(hunk) = line_diff_hunks.next()` loop of
`show_color_words_diff_hunks`: middle matching blocks use
`(num_context_lines, num_context_lines)` and drop the skip flag, the last
matching block uses `(num_context_lines, 0)` and records the skip flag,
different blocks delegate to the word differ.  Returns the events and the
final `skipped_context` flag. -/
def cwLoop (wordDiff : Content → Content → DiffLineNumber → List CWEvent × DiffLineNumber)
    (n : Nat) :
    List DiffHunk → DiffLineNumber → Bool → List CWEvent × Bool
  | [], _, skipped => ([], skipped)
  | DiffHunk.Matching c :: rest, ln, skipped =>
    if rest.isEmpty then
      let r := show_color_words_context_lines c ln n 0
      let r2 := cwLoop wordDiff n rest r.2.1 r.2.2
      (r.1 ++ r2.1, r2.2)
    else
      let r := show_color_words_context_lines c ln n n
      let r2 := cwLoop wordDiff n rest r.2.1 skipped
      (r.1 ++ r2.1, r2.2)
  | DiffHunk.Different l rr :: rest, ln, skipped =>
    let r := wordDiff l rr ln
    let r2 := cwLoop wordDiff n rest r.2 skipped
    (r.1 ++ r2.1, r2.2)

/-- The `next_if(Matching)` prologue of `show_color_words_diff_hunks`
followed by the main loop: a leading matching hunk is always consumed, and
the first "before" context (with `(0, num_context_lines)`) is printed only
when more hunks follow (`line_diff_hunks.peek().is_some()`).  Returns the
events and the final `skipped_context` flag. -/
def cwRun (wordDiff : Content → Content → DiffLineNumber → List CWEvent × DiffLineNumber)
    (hunks : List DiffHunk) (n : Nat) : List CWEvent × Bool :=
  match hunks with
  | DiffHunk.Matching c :: rest =>
    if rest.isEmpty then cwLoop wordDiff n rest ⟨1, 1⟩ false
    else
      let r := show_color_words_context_lines c ⟨1, 1⟩ 0 n
      let r2 := cwLoop wordDiff n rest r.2.1 false
      (r.1 ++ r2.1, r2.2)
  | hs => cwLoop wordDiff n hs ⟨1, 1⟩ false

/-- `show_color_words_diff_hunks` (`diff_util.rs` lines 397-469): prologue,
loop, then, if no ellipsis was just printed, some side is non-empty and
neither side ends with a newline, a bare newline is written. -/
def show_color_words_diff_hunks
    (wordDiff : Content → Content → DiffLineNumber → List CWEvent × DiffLineNumber)
    (left right : Content) (hunks : List DiffHunk) (n : Nat) : List CWEvent :=
  let r := cwRun wordDiff hunks n
  let no_hunk := left.isEmpty && right.isEmpty
  let any_last_newline := endsNL left || endsNL right
  if !r.2 && !no_hunk && !any_last_newline then r.1 ++ [CWEvent.newline]
  else r.1

/-- Characterization, directly in terms of the differ's hunk sequence, of the
final `skipped_context` flag: the last hunk is a matching block that is not
the lone hunk of the file and whose line count exceeds `num_context_lines`
by at least 2 (so its context elision prints an ellipsis). -/
def lastHunkSkips (hunks : List DiffHunk) (n : Nat) : Bool :=
  decide (2 ≤ hunks.length) &&
    (match hunks.getLast? with
     | some (DiffHunk.Matching c) => decide (n + 2 ≤ (splitInclusive c).length)
     | _ => false)

theorem show_color_words_context_lines_skip_flag (c : Content)
    (ln : DiffLineNumber) (n : Nat) :
    (show_color_words_context_lines c ln n 0).2.2 =
      decide (n + 2 ≤ (splitInclusive c).length) := by
  simp only [show_color_words_context_lines]
  split <;> rename_i h <;>
    simp only [List.length_reverse, List.length_take, List.length_drop] at h <;>
    simp <;> omega

theorem cwLoop_skip_out (wordDiff) (n : Nat) (l : List DiffHunk)
    (ln : DiffLineNumber) (sk : Bool) :
    (cwLoop wordDiff n l ln sk).2 =
      match l.getLast? with
      | some (DiffHunk.Matching c) => decide (n + 2 ≤ (splitInclusive c).length)
      | _ => sk := by
  induction l generalizing ln sk with
  | nil => simp [cwLoop]
  | cons h rest ih =>
    cases h with
    | Matching c =>
      cases rest with
      | nil =>
        simp [cwLoop, show_color_words_context_lines_skip_flag]
      | cons h2 rest2 =>
        simp only [cwLoop, List.isEmpty_cons, Bool.false_eq_true, if_false,
          List.getLast?_cons_cons]
        rw [ih]
    | Different a b =>
      cases rest with
      | nil => simp [cwLoop]
      | cons h2 rest2 =>
        simp only [cwLoop, List.getLast?_cons_cons]
        rw [ih]

theorem getLast?_mem_of_eq {α : Type} {l : List α} {a : α}
    (h : l.getLast? = some a) : a ∈ l := by
  rcases List.mem_getLast?_eq_getLast (l := l) (x := a) h with ⟨hne, rfl⟩
  exact List.getLast_mem hne

theorem newline_not_mem_printContextLines (ls : List Content)
    (ln : DiffLineNumber) :
    CWEvent.newline ∉ (printContextLines ls ln).1 := by
  induction ls generalizing ln with
  | nil => simp [printContextLines]
  | cons l rest ih => simp only [printContextLines, List.mem_cons]; simp [ih]

theorem newline_not_mem_context_lines (c : Content) (ln : DiffLineNumber)
    (na nb : Nat) :
    CWEvent.newline ∉ (show_color_words_context_lines c ln na nb).1 := by
  simp only [show_color_words_context_lines]
  split <;> simp [newline_not_mem_printContextLines]

theorem newline_not_mem_cwLoop
    (wordDiff : Content → Content → DiffLineNumber → List CWEvent × DiffLineNumber)
    (hwd : ∀ l r ln, CWEvent.newline ∉ (wordDiff l r ln).1)
    (n : Nat) (l : List DiffHunk) (ln : DiffLineNumber) (sk : Bool) :
    CWEvent.newline ∉ (cwLoop wordDiff n l ln sk).1 := by
  induction l generalizing ln sk with
  | nil => simp [cwLoop]
  | cons h rest ih =>
    cases h with
    | Matching c =>
      by_cases hr : rest.isEmpty <;>
        simp [cwLoop, hr, newline_not_mem_context_lines, ih]
    | Different a b =>
      simp [cwLoop, hwd, ih]

/-- The final `skipped_context` flag of the prologue-plus-loop equals the
direct characterization `lastHunkSkips`. -/
theorem cwRun_skip_eq_lastHunkSkips
    (wordDiff : Content → Content → DiffLineNumber → List CWEvent × DiffLineNumber)
    (hunks : List DiffHunk) (n : Nat) :
    (cwRun wordDiff hunks n).2 = lastHunkSkips hunks n := by
  cases hunks with
  | nil => simp [cwRun, cwLoop, lastHunkSkips]
  | cons h rest =>
    cases h with
    | Matching c =>
      cases rest with
      | nil => simp [cwRun, cwLoop, lastHunkSkips]
      | cons h2 r2 =>
        simp only [cwRun, List.isEmpty_cons, Bool.false_eq_true, if_false,
          cwLoop_skip_out, lastHunkSkips, List.getLast?_cons_cons,
          List.length_cons]
        rcases hg : (h2 :: r2).getLast? with _ | lastv
        · simp at hg
        · cases lastv <;> simp [hg]
    | Different a b =>
      cases rest with
      | nil => simp [cwRun, cwLoop, lastHunkSkips]
      | cons h2 r2 =>
        simp only [cwRun, cwLoop_skip_out, lastHunkSkips,
          List.getLast?_cons_cons, List.length_cons]
        rcases hg : (h2 :: r2).getLast? with _ | lastv
        · simp at hg
        · cases lastv <;> simp [hg]

theorem newline_not_mem_cwRun
    (wordDiff : Content → Content → DiffLineNumber → List CWEvent × DiffLineNumber)
    (hwd : ∀ l r ln, CWEvent.newline ∉ (wordDiff l r ln).1)
    (hunks : List DiffHunk) (n : Nat) :
    CWEvent.newline ∉ (cwRun wordDiff hunks n).1 := by
  cases hunks with
  | nil => exact newline_not_mem_cwLoop wordDiff hwd n _ _ _
  | cons h rest =>
    cases h with
    | Matching c =>
      by_cases hr : rest.isEmpty <;>
        simp [cwRun, hr, newline_not_mem_context_lines,
          newline_not_mem_cwLoop wordDiff hwd]
    | Different a b =>
      exact newline_not_mem_cwLoop wordDiff hwd n _ _ _

/-- Claim C6: `show_color_words_diff_hunks` writes a final trailing newline
after the last hunk iff no ellipsis was just printed (the last hunk is not a
matching block whose context elision skipped lines), not both sides are
empty, and neither side's content ends with a newline byte.  `wordDiff`
ranges over all word-level renderers that do not themselves emit the
bare-newline event (`DiffLineIterator` only emits diff lines). -/
theorem show_color_words_diff_hunks_final_newline
    (wordDiff : Content → Content → DiffLineNumber → List CWEvent × DiffLineNumber)
    (left right : Content) (hunks : List DiffHunk) (n : Nat)
    (hwd : ∀ l r ln, CWEvent.newline ∉ (wordDiff l r ln).1) :
    ((show_color_words_diff_hunks wordDiff left right hunks n).getLast? =
        some CWEvent.newline) ↔
      (lastHunkSkips hunks n = false ∧ ¬(left = [] ∧ right = []) ∧
        endsNL left = false ∧ endsNL right = false) := by
  have hmem := newline_not_mem_cwRun wordDiff hwd hunks n
  have hskip := cwRun_skip_eq_lastHunkSkips wordDiff hunks n
  simp only [show_color_words_diff_hunks, hskip]
  by_cases hc : (!lastHunkSkips hunks n && !(left.isEmpty && right.isEmpty) &&
      !(endsNL left || endsNL right)) = true
  · rw [if_pos hc]
    simp only [List.getLast?_concat]
    simp only [Bool.and_eq_true, Bool.not_eq_true', Bool.or_eq_false_iff,
      Bool.and_eq_false_iff] at hc
    constructor
    · intro _
      refine ⟨hc.1.1, ?_, hc.2.1, hc.2.2⟩
      intro ⟨hl, hr⟩
      rcases hc.1.2 with h | h <;> simp [hl, hr] at h
    · intro _; trivial
  · rw [if_neg hc]
    constructor
    · intro hlast
      exact absurd (getLast?_mem_of_eq hlast) hmem
    · intro ⟨h1, h2, h3, h4⟩
      exfalso
      apply hc
      simp only [Bool.and_eq_true, Bool.not_eq_true', Bool.or_eq_false_iff]
      refine ⟨⟨h1, ?_⟩, h3, h4⟩
      cases hE : (left.isEmpty && right.isEmpty) with
      | false => rfl
      | true =>
        exfalso
        simp only [Bool.and_eq_true, List.isEmpty_iff] at hE
        exact h2 hE

/-- Witness for C6 at a concrete input: left `"a"`, right `"b"`, a single
`Different` hunk, trivial word renderer; the trailing newline is written. -/
theorem show_color_words_diff_hunks_final_newline_witness :
    (show_color_words_diff_hunks
        (fun l r ln => ([CWEvent.line ln (l ++ r)], ln))
        (bytes "a") (bytes "b")
        [DiffHunk.Different (bytes "a") (bytes "b")] 3).getLast? =
      some CWEvent.newline :=
  (show_color_words_diff_hunks_final_newline
      (fun l r ln => ([CWEvent.line ln (l ++ r)], ln))
      (bytes "a") (bytes "b")
      [DiffHunk.Different (bytes "a") (bytes "b")] 3
      (by intro l r ln; simp)).mpr (by decide)

/-! ## Unified (Git) hunks (`diff_util.rs` lines 959-1151)

`unified_diff_hunks` in the source calls `Diff::by_line` on the two contents
and `inline_diff_hunks` calls `Diff::by_word`; both differs are external, so
the embedding takes the line-level hunk sequence as an argument and a
`wordDiff` function standing for `Diff::by_word`. -/

/-- `DiffLineType` (`diff_util.rs` lines 959-964). -/
inductive DiffLineType where
  | Context
  | Removed
  | Added
deriving DecidableEq, Repr

/-- `DiffTokenType` (`diff_util.rs` lines 966-970). -/
inductive DiffTokenType where
  | Matching
  | Different
deriving DecidableEq, Repr

/-- `DiffTokenVec` (`diff_util.rs` line 972). -/
abbrev DiffTokenVec := List (DiffTokenType × Content)

/-- `UnifiedDiffHunk` (`diff_util.rs` lines 974-978); the two `Range<usize>`
fields are stored as start/end pairs. -/
structure UnifiedDiffHunk where
  left_start : Nat
  left_end : Nat
  right_start : Nat
  right_end : Nat
  lines : List (DiffLineType × DiffTokenVec)
deriving DecidableEq, Repr

/-- `UnifiedDiffHunk::extend_context_lines` (`diff_util.rs` lines 981-989):
appends each line as a Context line with a single Matching token and grows
both range ends by the number of lines appended. -/
def extend_context_lines (h : UnifiedDiffHunk) (ls : List Content) : UnifiedDiffHunk :=
  { h with
    lines := h.lines ++ ls.map (fun l => (DiffLineType.Context, [(DiffTokenType.Matching, l)]))
    left_end := h.left_end + ls.length
    right_end := h.right_end + ls.length }

/-- `UnifiedDiffHunk::extend_removed_lines` (`diff_util.rs` lines 991-996). -/
def extend_removed_lines (h : UnifiedDiffHunk) (ls : List DiffTokenVec) : UnifiedDiffHunk :=
  { h with
    lines := h.lines ++ ls.map (fun l => (DiffLineType.Removed, l))
    left_end := h.left_end + ls.length }

/-- `UnifiedDiffHunk::extend_added_lines` (`diff_util.rs` lines 998-1003). -/
def extend_added_lines (h : UnifiedDiffHunk) (ls : List DiffTokenVec) : UnifiedDiffHunk :=
  { h with
    lines := h.lines ++ ls.map (fun l => (DiffLineType.Added, l))
    right_end := h.right_end + ls.length }

/-- Per-side token accumulation of `inline_diff_hunks` (`diff_util.rs` lines
1087-1098): each `split_inclusive` token is pushed onto the current line and a
newline-terminated token flushes the line. -/
def inlineSideTokens (tt : DiffTokenType) :
    List Content → DiffTokenVec → List DiffTokenVec → DiffTokenVec × List DiffTokenVec
  | [], ts, ls => (ts, ls)
  | tok :: rest, ts, ls =>
    let ts2 := ts ++ [(tt, tok)]
    if endsNL tok then inlineSideTokens tt rest [] (ls ++ [ts2])
    else inlineSideTokens tt rest ts2 ls

/-- The `DiffHunk::Matching` arm of `inline_diff_hunks` (`diff_util.rs` lines
1075-1083): each token is pushed onto both sides and flushes both lines when
newline-terminated. -/
def inlineMatchingTokens :
    List Content → DiffTokenVec → List DiffTokenVec → DiffTokenVec → List DiffTokenVec →
    (DiffTokenVec × List DiffTokenVec) × (DiffTokenVec × List DiffTokenVec)
  | [], lt, ll, rt, rl => ((lt, ll), (rt, rl))
  | tok :: rest, lt, ll, rt, rl =>
    let lt2 := lt ++ [(DiffTokenType.Matching, tok)]
    let rt2 := rt ++ [(DiffTokenType.Matching, tok)]
    if endsNL tok then inlineMatchingTokens rest [] (ll ++ [lt2]) [] (rl ++ [rt2])
    else inlineMatchingTokens rest lt2 ll rt2 rl

/-- The loop of `inline_diff_hunks` over the word-level hunks. -/
def inlineLoop :
    List DiffHunk → DiffTokenVec → List DiffTokenVec → DiffTokenVec → List DiffTokenVec →
    (DiffTokenVec × List DiffTokenVec) × (DiffTokenVec × List DiffTokenVec)
  | [], lt, ll, rt, rl => ((lt, ll), (rt, rl))
  | DiffHunk.Matching c :: rest, lt, ll, rt, rl =>
    let r := inlineMatchingTokens (splitInclusive c) lt ll rt rl
    inlineLoop rest r.1.1 r.1.2 r.2.1 r.2.2
  | DiffHunk.Different a b :: rest, lt, ll, rt, rl =>
    let rL := inlineSideTokens DiffTokenType.Different (splitInclusive a) lt ll
    let rR := inlineSideTokens DiffTokenType.Different (splitInclusive b) rt rl
    inlineLoop rest rL.1 rL.2 rR.1 rR.2

/-- `inline_diff_hunks` (`diff_util.rs` lines 1064-1110), with the external
`Diff::by_word([left, right])` supplied as `wordDiff`.  After the loop, a
non-empty current token vector on either side is pushed as a final line. -/
def inline_diff_hunks (wordDiff : Content → Content → List DiffHunk)
    (left_content right_content : Content) :
    List DiffTokenVec × List DiffTokenVec :=
  let r := inlineLoop (wordDiff left_content right_content) [] [] [] []
  let left_lines := if r.1.1.isEmpty then r.1.2 else r.1.2 ++ [r.1.1]
  let right_lines := if r.2.1.isEmpty then r.2.2 else r.2.2 ++ [r.2.1]
  (left_lines, right_lines)

/-- The fresh hunk `{ left_line_range: 1..1, right_line_range: 1..1 }`. -/
def initialUnifiedHunk : UnifiedDiffHunk := ⟨1, 1, 1, 1, []⟩

/-- The `DiffHunk::Matching` arm of the `unified_diff_hunks` loop
(`diff_util.rs` lines 1021-1047), as a step function: appends the trailing
context after the previous change (only when the current hunk already has
lines), computes the leading context before the next change (only when
`hasNext`, i.e. `diff_hunks.peek().is_some()`), and when lines are skipped
flushes the current hunk and starts a fresh one with both range ends advanced
by the skip count.  Returns the flushed hunks and the new current hunk. -/
def unifiedMatchingRest (n : Nat) (hasNext : Bool) (current1 : UnifiedDiffHunk)
    (ls1 : List Content) : List UnifiedDiffHunk × UnifiedDiffHunk :=
  let before_lines := if hasNext then ls1.reverse.take n else []
  let num_skip_lines := ls1.length - before_lines.length
  if num_skip_lines > 0 then
    let left_start := current1.left_end + num_skip_lines
    let right_start := current1.right_end + num_skip_lines
    let flushed := if current1.lines.isEmpty then [] else [current1]
    let fresh : UnifiedDiffHunk := ⟨left_start, left_start, right_start, right_start, []⟩
    (flushed, extend_context_lines fresh before_lines.reverse)
  else
    ([], extend_context_lines current1 before_lines.reverse)

/-- Entry point of the `Matching` arm: the trailing context after the
previous change is appended only when the current hunk already has lines
("The previous hunk line should be either removed/added"). -/
def unifiedMatchingStep (n : Nat) (content : Content) (hasNext : Bool)
    (current : UnifiedDiffHunk) : List UnifiedDiffHunk × UnifiedDiffHunk :=
  if current.lines.isEmpty then
    unifiedMatchingRest n hasNext current (splitInclusive content)
  else
    unifiedMatchingRest n hasNext
      (extend_context_lines current ((splitInclusive content).take n))
      ((splitInclusive content).drop n)

/-- The `while let Some(hunk) = diff_hunks.next()` loop of
`unified_diff_hunks` (`diff_util.rs` lines 1019-1058) plus the final flush of
a non-empty current hunk.  For a `Different` block, the inline tokenizer's
lines are appended as Removed then Added lines. -/
def unifiedLoop (wordDiff : Content → Content → List DiffHunk) (n : Nat) :
    List DiffHunk → UnifiedDiffHunk → List UnifiedDiffHunk
  | [], current => if current.lines.isEmpty then [] else [current]
  | DiffHunk.Matching content :: rest, current =>
    let r := unifiedMatchingStep n content (!rest.isEmpty) current
    r.1 ++ unifiedLoop wordDiff n rest r.2
  | DiffHunk.Different l r :: rest, current =>
    let inl := inline_diff_hunks wordDiff l r
    unifiedLoop wordDiff n rest
      (extend_added_lines (extend_removed_lines current inl.1) inl.2)

/-- `unified_diff_hunks` (`diff_util.rs` lines 1006-1060), over the external
line differ's hunk sequence `lineHunks` (the result of
`Diff::by_line([left_content, right_content])`). -/
def unified_diff_hunks (wordDiff : Content → Content → List DiffHunk)
    (lineHunks : List DiffHunk) (n : Nat) : List UnifiedDiffHunk :=
  unifiedLoop wordDiff n lineHunks initialUnifiedHunk

/-- Count of Context and Removed lines (the lines that consume a left line). -/
def countCR (lines : List (DiffLineType × DiffTokenVec)) : Nat :=
  lines.countP fun l =>
    match l.1 with
    | DiffLineType.Context => true
    | DiffLineType.Removed => true
    | DiffLineType.Added => false

/-- Count of Context and Added lines (the lines that consume a right line). -/
def countCA (lines : List (DiffLineType × DiffTokenVec)) : Nat :=
  lines.countP fun l =>
    match l.1 with
    | DiffLineType.Context => true
    | DiffLineType.Removed => false
    | DiffLineType.Added => true

/-- Range/line-count invariant of a unified hunk. -/
def hunkInv (h : UnifiedDiffHunk) : Prop :=
  h.left_end = h.left_start + countCR h.lines ∧
  h.right_end = h.right_start + countCA h.lines

theorem hunkInv_initial : hunkInv initialUnifiedHunk := by
  simp [hunkInv, initialUnifiedHunk, countCR, countCA]

theorem countCR_append (a b : List (DiffLineType × DiffTokenVec)) :
    countCR (a ++ b) = countCR a + countCR b := by
  simp [countCR, List.countP_append]

theorem countCA_append (a b : List (DiffLineType × DiffTokenVec)) :
    countCA (a ++ b) = countCA a + countCA b := by
  simp [countCA, List.countP_append]

theorem countCR_context_map (ls : List Content) :
    countCR (ls.map fun l => (DiffLineType.Context, [(DiffTokenType.Matching, l)])) =
      ls.length := by
  simp only [countCR]
  induction ls with
  | nil => rfl
  | cons a t ih => simp [List.countP_cons, ih]

theorem countCA_context_map (ls : List Content) :
    countCA (ls.map fun l => (DiffLineType.Context, [(DiffTokenType.Matching, l)])) =
      ls.length := by
  simp only [countCA]
  induction ls with
  | nil => rfl
  | cons a t ih => simp [List.countP_cons, ih]

theorem countCR_removed_map (ls : List DiffTokenVec) :
    countCR (ls.map fun l => (DiffLineType.Removed, l)) = ls.length := by
  simp only [countCR]
  induction ls with
  | nil => rfl
  | cons a t ih => simp [List.countP_cons, ih]

theorem countCA_removed_map (ls : List DiffTokenVec) :
    countCA (ls.map fun l => (DiffLineType.Removed, l)) = 0 := by
  simp only [countCA]
  induction ls with
  | nil => rfl
  | cons a t ih => simp [List.countP_cons, ih]

theorem countCR_added_map (ls : List DiffTokenVec) :
    countCR (ls.map fun l => (DiffLineType.Added, l)) = 0 := by
  simp only [countCR]
  induction ls with
  | nil => rfl
  | cons a t ih => simp [List.countP_cons, ih]

theorem countCA_added_map (ls : List DiffTokenVec) :
    countCA (ls.map fun l => (DiffLineType.Added, l)) = ls.length := by
  simp only [countCA]
  induction ls with
  | nil => rfl
  | cons a t ih => simp [List.countP_cons, ih]

theorem hunkInv_extend_context (h : UnifiedDiffHunk) (ls : List Content)
    (hi : hunkInv h) : hunkInv (extend_context_lines h ls) := by
  unfold hunkInv extend_context_lines at *
  simp only [countCR_append, countCA_append, countCR_context_map,
    countCA_context_map]
  omega

theorem hunkInv_extend_removed (h : UnifiedDiffHunk) (ls : List DiffTokenVec)
    (hi : hunkInv h) : hunkInv (extend_removed_lines h ls) := by
  unfold hunkInv extend_removed_lines at *
  simp only [countCR_append, countCA_append, countCR_removed_map,
    countCA_removed_map]
  omega

theorem hunkInv_extend_added (h : UnifiedDiffHunk) (ls : List DiffTokenVec)
    (hi : hunkInv h) : hunkInv (extend_added_lines h ls) := by
  unfold hunkInv extend_added_lines at *
  simp only [countCR_append, countCA_append, countCR_added_map,
    countCA_added_map]
  omega

theorem hunkInv_fresh (a b : Nat) : hunkInv ⟨a, a, b, b, []⟩ := by
  simp [hunkInv, countCR, countCA]

theorem unifiedMatchingRest_inv (n : Nat) (hasNext : Bool)
    (current1 : UnifiedDiffHunk) (ls1 : List Content) (hc1 : hunkInv current1) :
    (∀ h ∈ (unifiedMatchingRest n hasNext current1 ls1).1, hunkInv h) ∧
    hunkInv (unifiedMatchingRest n hasNext current1 ls1).2 := by
  unfold unifiedMatchingRest
  dsimp only
  set bl := if hasNext = true then ls1.reverse.take n else [] with hbl
  by_cases hskip : ls1.length - bl.length > 0
  · rw [if_pos hskip]
    dsimp only
    constructor
    · intro h hm
      by_cases hcur : current1.lines.isEmpty
      · rw [if_pos hcur] at hm
        exact absurd hm (List.not_mem_nil h)
      · rw [if_neg hcur] at hm
        simp only [List.mem_singleton] at hm
        exact hm ▸ hc1
    · exact hunkInv_extend_context _ _ (hunkInv_fresh _ _)
  · rw [if_neg hskip]
    exact ⟨by simp, hunkInv_extend_context _ _ hc1⟩

theorem unifiedMatchingStep_inv (n : Nat) (content : Content) (hasNext : Bool)
    (current : UnifiedDiffHunk) (hc : hunkInv current) :
    (∀ h ∈ (unifiedMatchingStep n content hasNext current).1, hunkInv h) ∧
    hunkInv (unifiedMatchingStep n content hasNext current).2 := by
  unfold unifiedMatchingStep
  split
  · exact unifiedMatchingRest_inv _ _ _ _ hc
  · exact unifiedMatchingRest_inv _ _ _ _ (hunkInv_extend_context _ _ hc)

theorem unifiedLoop_inv (wordDiff : Content → Content → List DiffHunk) (n : Nat)
    (lh : List DiffHunk) (current : UnifiedDiffHunk) (hc : hunkInv current) :
    ∀ h ∈ unifiedLoop wordDiff n lh current, hunkInv h := by
  induction lh generalizing current with
  | nil =>
    intro h hm
    simp only [unifiedLoop] at hm
    split at hm
    · exact absurd hm (List.not_mem_nil h)
    · simp only [List.mem_singleton] at hm
      exact hm ▸ hc
  | cons hd rest ih =>
    intro h hm
    cases hd with
    | Matching content =>
      simp only [unifiedLoop, List.mem_append] at hm
      have hstep := unifiedMatchingStep_inv n content (!rest.isEmpty) current hc
      rcases hm with hm | hm
      · exact hstep.1 h hm
      · exact ih _ hstep.2 h hm
    | Different l r =>
      simp only [unifiedLoop] at hm
      exact ih _ (hunkInv_extend_added _ _ (hunkInv_extend_removed _ _ hc)) h hm

/-- Claim C1: for every hunk produced by `unified_diff_hunks` (over any
line-differ output, any word differ and any context size), the length of the
left line range equals the number of Context and Removed lines and the length
of the right line range equals the number of Context and Added lines. -/
theorem unified_diff_hunks_range_lengths
    (wordDiff : Content → Content → List DiffHunk) (lineHunks : List DiffHunk)
    (n : Nat) (h : UnifiedDiffHunk)
    (hmem : h ∈ unified_diff_hunks wordDiff lineHunks n) :
    h.left_end - h.left_start = countCR h.lines ∧
    h.right_end - h.right_start = countCA h.lines := by
  have hi := unifiedLoop_inv wordDiff n lineHunks initialUnifiedHunk
    hunkInv_initial h hmem
  unfold hunkInv at hi
  omega

/-- Witness for C1 at a concrete input: a single fully-different hunk with
context 3, using the one-hunk word differ. -/
theorem unified_diff_hunks_range_lengths_witness :
    (⟨1, 2, 1, 2,
      [(DiffLineType.Removed, [(DiffTokenType.Different, bytes "a")]),
       (DiffLineType.Added, [(DiffTokenType.Different, bytes "b")])]⟩ :
        UnifiedDiffHunk).left_end -
      (⟨1, 2, 1, 2,
        [(DiffLineType.Removed, [(DiffTokenType.Different, bytes "a")]),
         (DiffLineType.Added, [(DiffTokenType.Different, bytes "b")])]⟩ :
          UnifiedDiffHunk).left_start =
      countCR [(DiffLineType.Removed, [(DiffTokenType.Different, bytes "a")]),
        (DiffLineType.Added, [(DiffTokenType.Different, bytes "b")])] :=
  (unified_diff_hunks_range_lengths (fun l r => [DiffHunk.Different l r])
    [DiffHunk.Different (bytes "a") (bytes "b")] 3 _ (by decide)).1

/-! ### Non-emptiness of hunk lines (safety of the
`expect("hunk line must not be empty")` in `show_unified_diff_hunks`) -/

theorem inlineSideTokens_nonempty (tt : DiffTokenType) (toks : List Content)
    (ts : DiffTokenVec) (ls : List DiffTokenVec)
    (hls : ∀ l ∈ ls, l ≠ []) :
    ∀ l ∈ (inlineSideTokens tt toks ts ls).2, l ≠ [] := by
  induction toks generalizing ts ls with
  | nil => exact hls
  | cons tok rest ih =>
    simp only [inlineSideTokens]
    split
    · apply ih
      intro l hl
      rcases List.mem_append.1 hl with hl | hl
      · exact hls l hl
      · simp only [List.mem_singleton] at hl
        subst hl
        simp
    · exact ih _ _ hls

theorem inlineMatchingTokens_nonempty (toks : List Content)
    (lt : DiffTokenVec) (ll : List DiffTokenVec)
    (rt : DiffTokenVec) (rl : List DiffTokenVec)
    (hll : ∀ l ∈ ll, l ≠ []) (hrl : ∀ l ∈ rl, l ≠ []) :
    (∀ l ∈ (inlineMatchingTokens toks lt ll rt rl).1.2, l ≠ []) ∧
    (∀ l ∈ (inlineMatchingTokens toks lt ll rt rl).2.2, l ≠ []) := by
  induction toks generalizing lt ll rt rl with
  | nil => exact ⟨hll, hrl⟩
  | cons tok rest ih =>
    simp only [inlineMatchingTokens]
    split
    · apply ih
      · intro l hl
        rcases List.mem_append.1 hl with hl | hl
        · exact hll l hl
        · simp only [List.mem_singleton] at hl
          subst hl
          simp
      · intro l hl
        rcases List.mem_append.1 hl with hl | hl
        · exact hrl l hl
        · simp only [List.mem_singleton] at hl
          subst hl
          simp
    · exact ih _ _ _ _ hll hrl

theorem inlineLoop_nonempty (hs : List DiffHunk)
    (lt : DiffTokenVec) (ll : List DiffTokenVec)
    (rt : DiffTokenVec) (rl : List DiffTokenVec)
    (hll : ∀ l ∈ ll, l ≠ []) (hrl : ∀ l ∈ rl, l ≠ []) :
    (∀ l ∈ (inlineLoop hs lt ll rt rl).1.2, l ≠ []) ∧
    (∀ l ∈ (inlineLoop hs lt ll rt rl).2.2, l ≠ []) := by
  induction hs generalizing lt ll rt rl with
  | nil => exact ⟨hll, hrl⟩
  | cons hd rest ih =>
    cases hd with
    | Matching c =>
      simp only [inlineLoop]
      have hm := inlineMatchingTokens_nonempty (splitInclusive c) lt ll rt rl hll hrl
      exact ih _ _ _ _ hm.1 hm.2
    | Different a b =>
      simp only [inlineLoop]
      exact ih _ _ _ _
        (inlineSideTokens_nonempty _ (splitInclusive a) lt ll hll)
        (inlineSideTokens_nonempty _ (splitInclusive b) rt rl hrl)

theorem inline_diff_hunks_nonempty (wordDiff : Content → Content → List DiffHunk)
    (a b : Content) :
    (∀ l ∈ (inline_diff_hunks wordDiff a b).1, l ≠ []) ∧
    (∀ l ∈ (inline_diff_hunks wordDiff a b).2, l ≠ []) := by
  unfold inline_diff_hunks
  have h := inlineLoop_nonempty (wordDiff a b) [] [] [] []
    (by intro l hl; exact absurd hl (List.not_mem_nil l))
    (by intro l hl; exact absurd hl (List.not_mem_nil l))
  constructor
  · intro l hl
    dsimp only at hl
    split at hl
    · exact h.1 l hl
    · rcases List.mem_append.1 hl with hl | hl
      · exact h.1 l hl
      · simp only [List.mem_singleton] at hl
        subst hl
        rename_i hne
        simpa using hne
  · intro l hl
    dsimp only at hl
    split at hl
    · exact h.2 l hl
    · rcases List.mem_append.1 hl with hl | hl
      · exact h.2 l hl
      · simp only [List.mem_singleton] at hl
        subst hl
        rename_i hne
        simpa using hne

/-- All lines of a unified hunk have non-empty token vectors. -/
def linesNonempty (h : UnifiedDiffHunk) : Prop :=
  ∀ l ∈ h.lines, l.2 ≠ []

theorem linesNonempty_initial : linesNonempty initialUnifiedHunk := by
  intro l hl
  exact absurd hl (List.not_mem_nil l)

theorem linesNonempty_extend_context (h : UnifiedDiffHunk) (ls : List Content)
    (hi : linesNonempty h) : linesNonempty (extend_context_lines h ls) := by
  intro l hl
  simp only [extend_context_lines, List.mem_append] at hl
  rcases hl with hl | hl
  · exact hi l hl
  · rcases List.mem_map.1 hl with ⟨c, _, rfl⟩
    simp

theorem linesNonempty_extend_removed (h : UnifiedDiffHunk) (ls : List DiffTokenVec)
    (hls : ∀ l ∈ ls, l ≠ []) (hi : linesNonempty h) :
    linesNonempty (extend_removed_lines h ls) := by
  intro l hl
  simp only [extend_removed_lines, List.mem_append] at hl
  rcases hl with hl | hl
  · exact hi l hl
  · rcases List.mem_map.1 hl with ⟨c, hc, rfl⟩
    exact hls c hc

theorem linesNonempty_extend_added (h : UnifiedDiffHunk) (ls : List DiffTokenVec)
    (hls : ∀ l ∈ ls, l ≠ []) (hi : linesNonempty h) :
    linesNonempty (extend_added_lines h ls) := by
  intro l hl
  simp only [extend_added_lines, List.mem_append] at hl
  rcases hl with hl | hl
  · exact hi l hl
  · rcases List.mem_map.1 hl with ⟨c, hc, rfl⟩
    exact hls c hc

theorem linesNonempty_fresh (a b : Nat) : linesNonempty ⟨a, a, b, b, []⟩ := by
  intro l hl
  exact absurd hl (List.not_mem_nil l)

theorem unifiedMatchingRest_nonempty (n : Nat) (hasNext : Bool)
    (current1 : UnifiedDiffHunk) (ls1 : List Content)
    (hc1 : linesNonempty current1) :
    (∀ h ∈ (unifiedMatchingRest n hasNext current1 ls1).1, linesNonempty h) ∧
    linesNonempty (unifiedMatchingRest n hasNext current1 ls1).2 := by
  unfold unifiedMatchingRest
  dsimp only
  set bl := if hasNext = true then ls1.reverse.take n else [] with hbl
  by_cases hskip : ls1.length - bl.length > 0
  · rw [if_pos hskip]
    dsimp only
    constructor
    · intro h hm
      by_cases hcur : current1.lines.isEmpty
      · rw [if_pos hcur] at hm
        exact absurd hm (List.not_mem_nil h)
      · rw [if_neg hcur] at hm
        simp only [List.mem_singleton] at hm
        exact hm ▸ hc1
    · exact linesNonempty_extend_context _ _ (linesNonempty_fresh _ _)
  · rw [if_neg hskip]
    exact ⟨by simp, linesNonempty_extend_context _ _ hc1⟩

theorem unifiedMatchingStep_nonempty (n : Nat) (content : Content)
    (hasNext : Bool) (current : UnifiedDiffHunk) (hc : linesNonempty current) :
    (∀ h ∈ (unifiedMatchingStep n content hasNext current).1, linesNonempty h) ∧
    linesNonempty (unifiedMatchingStep n content hasNext current).2 := by
  unfold unifiedMatchingStep
  split
  · exact unifiedMatchingRest_nonempty _ _ _ _ hc
  · exact unifiedMatchingRest_nonempty _ _ _ _
      (linesNonempty_extend_context _ _ hc)

theorem unifiedLoop_nonempty (wordDiff : Content → Content → List DiffHunk)
    (n : Nat) (lh : List DiffHunk) (current : UnifiedDiffHunk)
    (hc : linesNonempty current) :
    ∀ h ∈ unifiedLoop wordDiff n lh current, linesNonempty h := by
  induction lh generalizing current with
  | nil =>
    intro h hm
    simp only [unifiedLoop] at hm
    split at hm
    · exact absurd hm (List.not_mem_nil h)
    · simp only [List.mem_singleton] at hm
      exact hm ▸ hc
  | cons hd rest ih =>
    intro h hm
    cases hd with
    | Matching content =>
      simp only [unifiedLoop, List.mem_append] at hm
      have hstep := unifiedMatchingStep_nonempty n content (!rest.isEmpty) current hc
      rcases hm with hm | hm
      · exact hstep.1 h hm
      · exact ih _ hstep.2 h hm
    | Different l r =>
      simp only [unifiedLoop] at hm
      have hin := inline_diff_hunks_nonempty wordDiff l r
      exact ih _
        (linesNonempty_extend_added _ _ hin.2
          (linesNonempty_extend_removed _ _ hin.1 hc)) h hm

/-- Claim C9: for every line-differ output, word differ and context size,
every line of every hunk returned by `unified_diff_hunks` has a non-empty
token vector, so the `expect("hunk line must not be empty")` in
`show_unified_diff_hunks` can never panic. -/
theorem unified_diff_hunks_lines_nonempty
    (wordDiff : Content → Content → List DiffHunk) (lineHunks : List DiffHunk)
    (n : Nat) (h : UnifiedDiffHunk)
    (hmem : h ∈ unified_diff_hunks wordDiff lineHunks n) :
    ∀ l ∈ h.lines, l.2 ≠ [] :=
  unifiedLoop_nonempty wordDiff n lineHunks initialUnifiedHunk
    linesNonempty_initial h hmem

/-- Witness for C9 at a concrete input. -/
theorem unified_diff_hunks_lines_nonempty_witness :
    ([(DiffTokenType.Different, bytes "a")] : DiffTokenVec) ≠ [] :=
  unified_diff_hunks_lines_nonempty (fun l r => [DiffHunk.Different l r])
    [DiffHunk.Different (bytes "a") (bytes "b")] 3
    ⟨1, 2, 1, 2,
      [(DiffLineType.Removed, [(DiffTokenType.Different, bytes "a")]),
       (DiffLineType.Added, [(DiffTokenType.Different, bytes "b")])]⟩
    (by decide)
    (DiffLineType.Removed, [(DiffTokenType.Different, bytes "a")]) (by decide)

/-! ## Unified renderer (`show_unified_diff_hunks`, `diff_util.rs` lines
1112-1151) -/

/-- One observable output item of the unified renderer: the
`@@ -a,b +c,d @@` header, a sigil-prefixed line with its tokens, or the
`\\ No newline at end of file` footer. -/
inductive UDEvent where
  | hunkHeader (lStart lLen rStart rLen : Nat)
  | line (t : DiffLineType) (tokens : DiffTokenVec)
  | noNewline
deriving DecidableEq, Repr

/-- Whether a hunk line's final token lacks the trailing newline (the
condition under which the renderer writes the footer).  The empty-token-vector
case cannot arise (see `unified_diff_hunks_lines_nonempty`); there the
source's `expect` would panic and no footer is emitted. -/
def lineLacksNewline (l : DiffLineType × DiffTokenVec) : Bool :=
  match l.2.getLast? with
  | some tok => !endsNL tok.2
  | none => false

/-- Rendering of one hunk line (`diff_util.rs` lines 1127-1147): the line
with its tokens, then the footer when its last token is not
newline-terminated. -/
def renderUnifiedLine (l : DiffLineType × DiffTokenVec) : List UDEvent :=
  UDEvent.line l.1 l.2 ::
    (if lineLacksNewline l then [UDEvent.noNewline] else [])

/-- Rendering of one unified hunk: hunk header then its lines. -/
def renderUnifiedHunk (h : UnifiedDiffHunk) : List UDEvent :=
  UDEvent.hunkHeader h.left_start (h.left_end - h.left_start)
      h.right_start (h.right_end - h.right_start) ::
    (h.lines.map renderUnifiedLine).flatten

/-- `show_unified_diff_hunks` (`diff_util.rs` lines 1112-1151) as an event
trace, over the external line differ's hunk sequence. -/
def show_unified_diff_hunks (wordDiff : Content → Content → List DiffHunk)
    (lineHunks : List DiffHunk) (n : Nat) : List UDEvent :=
  ((unified_diff_hunks wordDiff lineHunks n).map renderUnifiedHunk).flatten

/-- Number of `\\ No newline at end of file` footer lines in a trace. -/
def countFooters (evs : List UDEvent) : Nat :=
  evs.countP fun e => match e with | .noNewline => true | _ => false

theorem countFooters_append (a b : List UDEvent) :
    countFooters (a ++ b) = countFooters a + countFooters b := by
  simp [countFooters, List.countP_append]

theorem countFooters_renderUnifiedLine (l : DiffLineType × DiffTokenVec) :
    countFooters (renderUnifiedLine l) = if lineLacksNewline l then 1 else 0 := by
  unfold renderUnifiedLine
  split <;> simp [countFooters, List.countP_cons]

theorem countFooters_renderLines (ls : List (DiffLineType × DiffTokenVec)) :
    countFooters ((ls.map renderUnifiedLine).flatten) =
      ls.countP lineLacksNewline := by
  induction ls with
  | nil => simp [countFooters]
  | cons a rest ih =>
    simp only [List.map_cons, List.flatten_cons, countFooters_append,
      countFooters_renderUnifiedLine, List.countP_cons, ih]
    split <;> omega

theorem countFooters_renderUnifiedHunk (h : UnifiedDiffHunk) :
    countFooters (renderUnifiedHunk h) = h.lines.countP lineLacksNewline := by
  unfold renderUnifiedHunk
  rw [← countFooters_renderLines h.lines]
  simp [countFooters, List.countP_cons]

/-- Claim C2, amended: `show_unified_diff_hunks` emits exactly one
`\\ No newline at end of file` footer per rendered hunk line whose final
token lacks a trailing newline — no more, no fewer.  A side whose content
does not end with a newline receives a footer only when the hunks reach the
line holding that side's end of file; otherwise (see the counterexample) no
footer is emitted for it. -/
theorem show_unified_diff_hunks_footer_count
    (wordDiff : Content → Content → List DiffHunk) (lineHunks : List DiffHunk)
    (n : Nat) :
    countFooters (show_unified_diff_hunks wordDiff lineHunks n) =
      ((unified_diff_hunks wordDiff lineHunks n).map
        (fun h => h.lines.countP lineLacksNewline)).sum := by
  unfold show_unified_diff_hunks
  induction unified_diff_hunks wordDiff lineHunks n with
  | nil => simp [countFooters]
  | cons h rest ih =>
    simp only [List.map_cons, List.flatten_cons, countFooters_append,
      countFooters_renderUnifiedHunk, List.sum_cons, ih]

/-- Left content reconstructed from a line-differ hunk sequence (what
`Diff::by_line` guarantees: the hunks concatenate back to the inputs). -/
def reconstructLeft : List DiffHunk → Content
  | [] => []
  | DiffHunk.Matching c :: rest => c ++ reconstructLeft rest
  | DiffHunk.Different l _ :: rest => l ++ reconstructLeft rest

/-- Right content reconstructed from a line-differ hunk sequence. -/
def reconstructRight : List DiffHunk → Content
  | [] => []
  | DiffHunk.Matching c :: rest => c ++ reconstructRight rest
  | DiffHunk.Different _ r :: rest => r ++ reconstructRight rest

/-- Counterexample to claim C2 as stated: for left `"x\na"`, right `"y\na"`
(the canonical line diff is `Different("x\n","y\n")` then `Matching("a")`)
and context size 0, both sides are non-empty, differing, non-binary and do
not end with a newline byte, yet the unified output contains zero
`\\ No newline at end of file` footers — the final matching line `"a"` is
outside every hunk, so neither side gets its footer. -/
theorem show_unified_diff_hunks_footer_counterexample :
    countFooters (show_unified_diff_hunks (fun l r => [DiffHunk.Different l r])
        [DiffHunk.Different (bytes "x\n") (bytes "y\n"),
         DiffHunk.Matching (bytes "a")] 0) = 0 ∧
    reconstructLeft [DiffHunk.Different (bytes "x\n") (bytes "y\n"),
        DiffHunk.Matching (bytes "a")] = bytes "x\na" ∧
    reconstructRight [DiffHunk.Different (bytes "x\n") (bytes "y\n"),
        DiffHunk.Matching (bytes "a")] = bytes "y\na" ∧
    bytes "x\na" ≠ [] ∧ endsNL (bytes "x\na") = false ∧
    bytes "y\na" ≠ [] ∧ endsNL (bytes "y\na") = false ∧
    bytes "x\na" ≠ bytes "y\na" ∧
    (file_content_for_diff (bytes "x\na")).is_binary = false ∧
    (file_content_for_diff (bytes "y\na")).is_binary = false := by
  decide

/-! ## Materialized tree values, content classifier and copy records
(`diff_util.rs` lines 381-395, 556-645, 882-957) -/

/-- `MaterializedTreeValue` (from `jj_lib::conflicts`): object ids are
modelled by their hex strings, file readers by the byte list they yield, and
errors by strings. -/
inductive MaterializedTreeValue where
  | Absent
  | AccessDenied (err : String)
  | File (id : String) (executable : Bool) (contents : Content)
  | Symlink (id : String) (target : Content)
  | GitSubmodule (id : String)
  | Conflict (id : String) (contents : Content) (executable : Bool)
  | Tree (id : String)
deriving DecidableEq, Repr

def MaterializedTreeValue.is_absent : MaterializedTreeValue → Bool
  | .Absent => true
  | _ => false

def MaterializedTreeValue.is_present (v : MaterializedTreeValue) : Bool :=
  !v.is_absent

/-- `DiffRenderError` (`diff_util.rs` lines 206-219).  `fatal` stands for a
Rust panic (`unreachable!` or the explicit `panic!` on `Tree` values), which
aborts rather than returning; modelling it as an error keeps the embedding
total while staying distinguishable from real error returns. -/
inductive RenderErr where
  | backend (err : String)
  | accessDenied (path err : String)
  | fatal (msg : String)
deriving DecidableEq, Repr

/-- `diff_content` (`diff_util.rs` lines 593-625). -/
def diff_content (path : String) (v : MaterializedTreeValue) :
    Except RenderErr FileContent :=
  match v with
  | .Absent => .ok FileContent.empty
  | .AccessDenied err => .ok ⟨false, bytes ("Access denied: " ++ err)⟩
  | .File _ _ contents => .ok (file_content_for_diff contents)
  | .Symlink _ target => .ok ⟨false, target⟩
  | .GitSubmodule id => .ok ⟨false, bytes ("Git submodule checked out at " ++ id)⟩
  | .Conflict _ contents _ => .ok ⟨false, contents⟩
  | .Tree _ => .error (.fatal ("Unexpected tree in diff at path " ++ path))

/-- `basic_diff_file_type` (`diff_util.rs` lines 627-645); panics on
`Absent`. -/
def basic_diff_file_type : MaterializedTreeValue → Except RenderErr String
  | .Absent => .error (.fatal "absent path in diff")
  | .AccessDenied _ => .ok "access denied"
  | .File _ exec _ => .ok (if exec then "executable file" else "regular file")
  | .Symlink _ _ => .ok "symlink"
  | .Tree _ => .ok "tree"
  | .GitSubmodule _ => .ok "Git submodule"
  | .Conflict _ _ _ => .ok "conflict"

/-- A copy record `{source, target}`. -/
structure CopyRecord where
  source : String
  target : String
deriving DecidableEq, Repr

/-- `collect_copied_sources` (`diff_util.rs` lines 381-395): the source paths
of the records whose target is matched; the `HashSet` is modelled as a
list queried by `contains`. -/
def collect_copied_sources (records : List CopyRecord)
    (matcher : String → Bool) : List String :=
  records.filterMap fun r => if matcher r.target then some r.source else none

deriving instance DecidableEq for Except

/-- A materialized tree-diff entry: source/target paths and the pair of
values (or the stream's error).  `toTreeSourceAbsent` models the external
`to_tree.path_value(&source_path).is_absent()` lookup used for the
rename-vs-copy decision.  UI paths are the repo paths themselves (the path
converter is the identity in this model). -/
structure DiffEntry where
  source : String
  target : String
  value : Except String (MaterializedTreeValue × MaterializedTreeValue)
  toTreeSourceAbsent : Bool
deriving DecidableEq, Repr

/-- `RepoPathUiConverter::format_copied_path`. -/
def format_copied_path (s t : String) : String := s ++ " => " ++ t

/-! ## Color-words per-entry driver (`show_color_words_diff`,
`diff_util.rs` lines 647-799) -/

/-- One observable output item of `show_color_words_diff`.  The call to
`show_color_words_diff_hunks` is recorded as a `hunks` event carrying its
arguments (that renderer is verified separately). -/
inductive CWDiffEvent where
  | accessDenied (path err : String)
  | header (desc path : String)
  | headerCopied (desc fromPath toPath : String)
  | empty
  | binary
  | hunks (left right : Content) (n : Nat)
deriving DecidableEq, Repr

/-- `first.to_ascii_uppercase()` on the first byte of the type name
(`diff_util.rs` lines 743-749). -/
def capitalizeFirst (w : String) : String :=
  match w.toList with
  | [] => ""
  | c :: rest => String.mk (c.toUpper :: rest)

/-- The modified-entry description (`diff_util.rs` lines 705-751). -/
def cwModifiedDescription (v1 v2 : MaterializedTreeValue) :
    Except RenderErr String :=
  match v1, v2 with
  | .File _ le _, .File _ re _ =>
    .ok (if le && re then "Modified executable file"
      else if le then "Executable file became non-executable at"
      else if re then "Non-executable file became executable at"
      else "Modified regular file")
  | .Conflict _ _ _, .Conflict _ _ _ => .ok "Modified conflict in"
  | .Conflict _ _ _, _ => .ok "Resolved conflict in"
  | _, .Conflict _ _ _ => .ok "Created conflict in"
  | .Symlink _ _, .Symlink _ _ => .ok "Symlink target changed at"
  | _, _ => do
    let lt ← basic_diff_file_type v1
    let rt ← basic_diff_file_type v2
    .ok (capitalizeFirst lt ++ " became " ++ rt ++ " at")

/-- One iteration of the `show_color_words_diff` loop (`diff_util.rs` lines
666-794): access-denied on the left, then on the right, is reported inline;
otherwise the entry is classified added / modified / removed and its header,
empty/binary placeholder or hunks are emitted.  (In the source the added /
removed headers are written before the content is read; content read errors
here abort the whole entry instead, which only matters for `Tree` panics.) -/
def show_color_words_entry (leftPath rightPath : String)
    (v1 v2 : MaterializedTreeValue) (n : Nat) :
    Except RenderErr (List CWDiffEvent) :=
  match v1, v2 with
  | .AccessDenied err, _ => .ok [.accessDenied leftPath err]
  | _, .AccessDenied err => .ok [.accessDenied rightPath err]
  | _, _ =>
    if v1.is_absent then do
      let desc ← basic_diff_file_type v2
      let rc ← diff_content rightPath v2
      let body :=
        if rc.contents.isEmpty then [CWDiffEvent.empty]
        else if rc.is_binary then [CWDiffEvent.binary]
        else [CWDiffEvent.hunks [] rc.contents n]
      .ok (CWDiffEvent.header ("Added " ++ desc) rightPath :: body)
    else if v2.is_present then do
      let desc ← cwModifiedDescription v1 v2
      let lc ← diff_content leftPath v1
      let rc ← diff_content rightPath v2
      let hdr :=
        if leftPath = rightPath then CWDiffEvent.header desc rightPath
        else CWDiffEvent.headerCopied desc leftPath rightPath
      let body :=
        if lc.is_binary || rc.is_binary then [CWDiffEvent.binary]
        else [CWDiffEvent.hunks lc.contents rc.contents n]
      .ok (hdr :: body)
    else do
      let desc ← basic_diff_file_type v1
      let lc ← diff_content leftPath v1
      let body :=
        if lc.contents.isEmpty then [CWDiffEvent.empty]
        else if lc.is_binary then [CWDiffEvent.binary]
        else [CWDiffEvent.hunks lc.contents [] n]
      .ok (CWDiffEvent.header ("Removed " ++ desc) rightPath :: body)

/-- `show_color_words_diff` (`diff_util.rs` lines 647-799): drains the
stream, propagating stream errors and concatenating per-entry output. -/
def show_color_words_diff (entries : List DiffEntry) (n : Nat) :
    Except RenderErr (List CWDiffEvent) :=
  match entries with
  | [] => .ok []
  | e :: rest =>
    match e.value with
    | .error err => .error (.backend err)
    | .ok (v1, v2) =>
      match show_color_words_entry e.source e.target v1 v2 n with
      | .error er => .error er
      | .ok evs =>
        match show_color_words_diff rest n with
        | .error er => .error er
        | .ok evs2 => .ok (evs ++ evs2)

/-! ## Git per-entry driver (`show_git_diff`, `diff_util.rs` lines
882-957 and 1153-1262) -/

/-- `GitDiffPart` (`diff_util.rs` lines 882-887). -/
structure GitDiffPart where
  mode : Option String
  hash : String
  content : FileContent
deriving DecidableEq, Repr

def DUMMY_HASH : String := "0000000000"

/-- `git_diff_part` (`diff_util.rs` lines 889-957): `hash.truncate(10)` is
applied to every hash before returning. -/
def git_diff_part (path : String) (v : MaterializedTreeValue) :
    Except RenderErr GitDiffPart :=
  match v with
  | .Absent => .ok ⟨none, DUMMY_HASH, FileContent.empty⟩
  | .AccessDenied err => .error (.accessDenied path err)
  | .File id exec contents =>
    .ok ⟨some (if exec then "100755" else "100644"), id.take 10,
      file_content_for_diff contents⟩
  | .Symlink id target => .ok ⟨some "120000", id.take 10, ⟨false, target⟩⟩
  | .GitSubmodule id => .ok ⟨some "040000", id.take 10, FileContent.empty⟩
  | .Conflict _ contents exec =>
    .ok ⟨some (if exec then "100755" else "100644"), DUMMY_HASH.take 10,
      ⟨false, contents⟩⟩
  | .Tree _ => .error (.fatal "Unexpected tree in diff")

/-- One observable output item of `show_git_diff`; each constructor is one
`writeln!` of the source, and `unified` records the call to
`show_unified_diff_hunks` (verified separately). -/
inductive GitEvent where
  | diffGit (a b : String)
  | newFileMode (mode : String)
  | deletedFileMode (mode : String)
  | indexLine (lh rh : String)
  | opFrom (op fromPath : String)
  | opTo (op toPath : String)
  | oldMode (mode : String)
  | newMode (mode : String)
  | indexModeLine (lh rh mode : String)
  | binaryDiffer (lp rp : String)
  | minusPath (p : String)
  | plusPath (p : String)
  | unified (left right : Content) (n : Nat)
deriving DecidableEq, Repr

/-- One iteration of the `show_git_diff` loop (`diff_util.rs` lines
1166-1258): both parts are materialized first (so access-denied errors are
hard), then the copied-source suppression may skip the entry, then the file
header, then (when contents differ) the binary line or `---`/`+++` and the
unified hunks. -/
def show_git_diff_entry (copiedSources : List String)
    (toTreeSourceAbsent : Bool) (leftPath rightPath : String)
    (v1 v2 : MaterializedTreeValue) (n : Nat) :
    Except RenderErr (List GitEvent) := do
  let left_part ← git_diff_part leftPath v1
  let right_part ← git_diff_part rightPath v2
  if right_part.mode.isNone && copiedSources.contains leftPath then
    return []
  let headerRest ←
    (match left_part.mode, right_part.mode with
     | none, some rmode =>
       Except.ok [GitEvent.newFileMode rmode,
         GitEvent.indexLine left_part.hash right_part.hash]
     | some lmode, none =>
       Except.ok [GitEvent.deletedFileMode lmode,
         GitEvent.indexLine left_part.hash right_part.hash]
     | some lmode, some rmode =>
       let renames :=
         if leftPath ≠ rightPath then
           [GitEvent.opFrom (if toTreeSourceAbsent then "rename" else "copy") leftPath,
            GitEvent.opTo (if toTreeSourceAbsent then "rename" else "copy") rightPath]
         else []
       let modes :=
         if lmode ≠ rmode then
           [GitEvent.oldMode lmode, GitEvent.newMode rmode] ++
             (if left_part.hash ≠ right_part.hash then
               [GitEvent.indexLine left_part.hash right_part.hash] else [])
         else if left_part.hash ≠ right_part.hash then
           [GitEvent.indexModeLine left_part.hash right_part.hash lmode]
         else []
       Except.ok (renames ++ modes)
     | none, none =>
       Except.error (RenderErr.fatal "either left or right part should be present"))
  let header := GitEvent.diffGit leftPath rightPath :: headerRest
  if left_part.content.contents = right_part.content.contents then
    return header
  let lp := match left_part.mode with
    | some _ => "a/" ++ leftPath
    | none => "/dev/null"
  let rp := match right_part.mode with
    | some _ => "b/" ++ rightPath
    | none => "/dev/null"
  if left_part.content.is_binary || right_part.content.is_binary then
    return header ++ [GitEvent.binaryDiffer lp rp]
  return header ++ [GitEvent.minusPath lp, GitEvent.plusPath rp,
    GitEvent.unified left_part.content.contents right_part.content.contents n]

/-- The entry loop of `show_git_diff` over the drained stream. -/
def show_git_diff_go (copiedSources : List String) (entries : List DiffEntry)
    (n : Nat) : Except RenderErr (List GitEvent) :=
  match entries with
  | [] => .ok []
  | e :: rest =>
    match e.value with
    | .error err => .error (.backend err)
    | .ok (v1, v2) =>
      match show_git_diff_entry copiedSources e.toTreeSourceAbsent e.source
          e.target v1 v2 n with
      | .error er => .error er
      | .ok evs =>
        match show_git_diff_go copiedSources rest n with
        | .error er => .error er
        | .ok evs2 => .ok (evs ++ evs2)

/-- `show_git_diff` (`diff_util.rs` lines 1153-1262): collects the copied
sources once, then drains the stream. -/
def show_git_diff (records : List CopyRecord) (matcher : String → Bool)
    (entries : List DiffEntry) (n : Nat) : Except RenderErr (List GitEvent) :=
  show_git_diff_go (collect_copied_sources records matcher) entries n

/-! ## Summary driver (`show_diff_summary`, `diff_util.rs` lines 1264-1308) -/

/-- One summary line: `R`/`C`/`M`/`A`/`D` followed by a path. -/
inductive SummaryEvent where
  | R (path : String)
  | C (path : String)
  | M (path : String)
  | A (path : String)
  | D (path : String)
deriving DecidableEq, Repr

/-- One iteration of the `show_diff_summary` loop (`diff_util.rs` lines
1277-1303).  The `(false, false)` presence pair is the source's
`unreachable!()`. -/
def show_diff_summary_entry (copiedSources : List String) (e : DiffEntry)
    (v1 v2 : MaterializedTreeValue) : Except RenderErr (List SummaryEvent) :=
  if e.source ≠ e.target then
    let path := format_copied_path e.source e.target
    if e.toTreeSourceAbsent then .ok [SummaryEvent.R path]
    else .ok [SummaryEvent.C path]
  else
    let path := e.target
    match v1.is_present, v2.is_present with
    | true, true => .ok [SummaryEvent.M path]
    | false, true => .ok [SummaryEvent.A path]
    | true, false =>
      if !copiedSources.contains e.source then .ok [SummaryEvent.D path]
      else .ok []
    | false, false => .error (.fatal "unreachable")

/-- The entry loop of `show_diff_summary`. -/
def show_diff_summary_go (copiedSources : List String)
    (entries : List DiffEntry) : Except RenderErr (List SummaryEvent) :=
  match entries with
  | [] => .ok []
  | e :: rest =>
    match e.value with
    | .error err => .error (.backend err)
    | .ok (v1, v2) =>
      match show_diff_summary_entry copiedSources e v1 v2 with
      | .error er => .error er
      | .ok evs =>
        match show_diff_summary_go copiedSources rest with
        | .error er => .error er
        | .ok evs2 => .ok (evs ++ evs2)

/-- `show_diff_summary` (`diff_util.rs` lines 1264-1308). -/
def show_diff_summary (records : List CopyRecord) (matcher : String → Bool)
    (entries : List DiffEntry) : Except RenderErr (List SummaryEvent) :=
  show_diff_summary_go (collect_copied_sources records matcher) entries

/-! ## File-by-file external-tool driver (`show_file_by_file_diff`,
`diff_util.rs` lines 801-880) -/

/-- One observable output item of `show_file_by_file_diff`: the inline
access-denied message, or one external-tool invocation with the two temp
files' paths and contents. -/
inductive FBEvent where
  | accessDenied (path err : String)
  | invoke (leftPath : String) (leftContents : Content)
      (rightPath : String) (rightContents : Content)
deriving DecidableEq, Repr

/-- One iteration of the `show_file_by_file_diff` loop after the suppression
check (`diff_util.rs` lines 841-875): the right side's access-denial is
checked before the left's, then both files are created and the tool invoked. -/
def show_file_by_file_entry (leftPath rightPath : String)
    (v1 v2 : MaterializedTreeValue) : Except RenderErr (List FBEvent) :=
  match v1, v2 with
  | _, .AccessDenied err => .ok [FBEvent.accessDenied rightPath err]
  | .AccessDenied err, _ => .ok [FBEvent.accessDenied leftPath err]
  | _, _ => do
    let lc ← diff_content leftPath v1
    let rc ← diff_content rightPath v2
    .ok [FBEvent.invoke leftPath lc.contents rightPath rc.contents]

/-- The entry loop of `show_file_by_file_diff` (`diff_util.rs` lines
829-877): the copied-source suppression (right absent and left path in the
copied sources) is checked before the access-denied checks. -/
def show_file_by_file_diff_go (copiedSources : List String)
    (entries : List DiffEntry) : Except RenderErr (List FBEvent) :=
  match entries with
  | [] => .ok []
  | e :: rest =>
    match e.value with
    | .error err => .error (.backend err)
    | .ok (v1, v2) =>
      if v2.is_absent && copiedSources.contains e.source then
        show_file_by_file_diff_go copiedSources rest
      else
        match show_file_by_file_entry e.source e.target v1 v2 with
        | .error er => .error er
        | .ok evs =>
          match show_file_by_file_diff_go copiedSources rest with
          | .error er => .error er
          | .ok evs2 => .ok (evs ++ evs2)

/-- `show_file_by_file_diff` (`diff_util.rs` lines 801-880). -/
def show_file_by_file_diff (records : List CopyRecord)
    (matcher : String → Bool) (entries : List DiffEntry) :
    Except RenderErr (List FBEvent) :=
  show_file_by_file_diff_go (collect_copied_sources records matcher) entries

/-! ## Stat renderer (`diff_util.rs` lines 1310-1436) -/

/-- `DiffStat` (`diff_util.rs` lines 1310-1315). -/
structure DiffStat where
  path : String
  added : Nat
  removed : Nat
  is_deletion : Bool
deriving DecidableEq, Repr

/-- `get_diff_stat` (`diff_util.rs` lines 1317-1344), with the external
`Diff::by_line` supplied as `lineDiff`: `removed` counts the left lines and
`added` the right lines of every `Different` hunk, and `is_deletion` is
`right_content.contents.is_empty()`. -/
def get_diff_stat (lineDiff : Content → Content → List DiffHunk)
    (path : String) (left_content right_content : FileContent) : DiffStat :=
  let hunks := lineDiff left_content.contents right_content.contents
  let counts := hunks.foldl
    (fun acc h =>
      match h with
      | DiffHunk.Matching _ => acc
      | DiffHunk.Different l r =>
        (acc.1 + (splitInclusive r).length, acc.2 + (splitInclusive l).length))
    (0, 0)
  ⟨path, counts.1, counts.2, right_content.contents.isEmpty⟩

/-- The accumulation loop of `show_diff_stat` (`diff_util.rs` lines
1358-1384): materializes both contents, picks the display path (the copied
form when the paths differ, also inserting the left path into
`unresolved_renames`), and collects the per-entry `DiffStat`s. -/
def show_diff_stat_collect (lineDiff : Content → Content → List DiffHunk)
    (entries : List DiffEntry) :
    Except RenderErr (List DiffStat × List String) :=
  match entries with
  | [] => .ok ([], [])
  | e :: rest =>
    match e.value with
    | .error err => .error (.backend err)
    | .ok (v1, v2) =>
      match diff_content e.source v1 with
      | .error er => .error er
      | .ok lc =>
        match diff_content e.target v2 with
        | .error er => .error er
        | .ok rc =>
          let pathPart : String × List String :=
            if e.source = e.target then (e.source, [])
            else (format_copied_path e.source e.target, [e.source])
          let stat := get_diff_stat lineDiff pathPart.1 lc rc
          match show_diff_stat_collect lineDiff rest with
          | .error er => .error er
          | .ok r => .ok (stat :: r.1, pathPart.2 ++ r.2)

/-- The row filter of the output loop (`diff_util.rs` lines 1402-1404): rows
whose `is_deletion` flag is set and whose path is in `unresolved_renames`
are skipped. -/
def show_diff_stat_rows (stats : List DiffStat) (unresolved : List String) :
    List DiffStat :=
  stats.filter fun s => !(s.is_deletion && unresolved.contains s.path)

/-- The totals accumulated by the output loop (`diff_util.rs` lines
1399-1409): `(total_files, total_added, total_removed)`, skipping the same
rows. -/
def show_diff_stat_totals (stats : List DiffStat) (unresolved : List String) :
    Nat × Nat × Nat :=
  stats.foldl
    (fun acc s =>
      if s.is_deletion && unresolved.contains s.path then acc
      else (acc.1 + 1, acc.2.1 + s.added, acc.2.2 + s.removed))
    (0, 0, 0)

/-! ## Claim C3: copied-source suppression of delete entries -/

/-- Claim C3: for every diff entry whose right side is absent and whose left
path is in the copied-sources suppression set, the summary renderer emits no
`D` line for that entry and the Git renderer skips the entry entirely:
whenever its per-entry rendering succeeds it produces no output at all, and
the driver's output over `entry :: rest` equals its output over `rest`. -/
theorem copied_source_delete_suppression
    (records : List CopyRecord) (matcher : String → Bool) (s : String)
    (hs : s ∈ collect_copied_sources records matcher)
    (e : DiffEntry) (v1 : MaterializedTreeValue)
    (hsource : e.source = s) (n : Nat) :
    (∀ evs, show_git_diff_entry (collect_copied_sources records matcher)
        e.toTreeSourceAbsent e.source e.target v1 MaterializedTreeValue.Absent n =
          .ok evs → evs = []) ∧
    (∀ evs, show_diff_summary_entry (collect_copied_sources records matcher) e
        v1 MaterializedTreeValue.Absent = .ok evs →
      ∀ p, SummaryEvent.D p ∉ evs) ∧
    (∀ rest part, git_diff_part e.source v1 = .ok part →
      e.value = .ok (v1, MaterializedTreeValue.Absent) →
      show_git_diff_go (collect_copied_sources records matcher) (e :: rest) n =
        show_git_diff_go (collect_copied_sources records matcher) rest n) := by
  have hmem : e.source ∈ collect_copied_sources records matcher := by
    rw [hsource]; exact hs
  have hc : (collect_copied_sources records matcher).contains e.source = true := by
    simpa using hmem
  refine ⟨?_, ?_, ?_⟩
  · intro evs hok
    unfold show_git_diff_entry at hok
    cases hpart : git_diff_part e.source v1 with
    | error er =>
      rw [hpart] at hok
      simp [Bind.bind, Except.bind] at hok
    | ok part =>
      rw [hpart] at hok
      simp only [git_diff_part, Bind.bind, Except.bind, Pure.pure, Except.pure,
        hc, Option.isNone, Bool.and_true, Bool.true_and, Bool.and_self,
        if_true] at hok
      exact (Except.ok.inj hok).symm
  · intro evs hok p
    unfold show_diff_summary_entry at hok
    by_cases hpq : e.source ≠ e.target
    · rw [if_pos hpq] at hok
      split at hok <;>
        simp only [Except.ok.injEq] at hok <;>
        subst hok <;> simp
    · rw [if_neg hpq] at hok
      rw [show (MaterializedTreeValue.Absent).is_present = false from rfl] at hok
      cases hv : v1.is_present <;> rw [hv] at hok
      · exact absurd hok (by simp)
      · rw [hc] at hok
        simp only [Bool.not_true, Bool.false_eq_true, if_false] at hok
        simp only [Except.ok.injEq] at hok
        subst hok
        simp
  · intro rest part hpart hval
    have hentry : show_git_diff_entry (collect_copied_sources records matcher)
        e.toTreeSourceAbsent e.source e.target v1 MaterializedTreeValue.Absent n =
          .ok [] := by
      unfold show_git_diff_entry
      rw [hpart]
      simp [git_diff_part, Bind.bind, Except.bind, Pure.pure, Except.pure, hc,
        hmem]
    simp only [show_git_diff_go, hval, hentry]
    cases show_git_diff_go (collect_copied_sources records matcher) rest n <;>
      simp

/-- Witness for C3 at a concrete input: a copied source `s` (record
`{source: s, target: t}`, matcher accepting everything) whose delete entry is
skipped by the Git driver. -/
theorem copied_source_delete_suppression_witness :
    show_git_diff [⟨"s", "t"⟩] (fun _ => true)
      [⟨"s", "s",
        .ok (MaterializedTreeValue.File "abcdef" false (bytes "x"),
          MaterializedTreeValue.Absent), false⟩] 3 = .ok [] := by
  have h := (copied_source_delete_suppression [⟨"s", "t"⟩] (fun _ => true) "s"
    (by simp [collect_copied_sources])
    ⟨"s", "s",
      .ok (MaterializedTreeValue.File "abcdef" false (bytes "x"),
        MaterializedTreeValue.Absent), false⟩
    (MaterializedTreeValue.File "abcdef" false (bytes "x")) rfl 3).2.2
    [] ⟨some "100644", "abcdef", file_content_for_diff (bytes "x")⟩ rfl rfl
  unfold show_git_diff
  rw [h]
  rfl

/-! ## Claim C7: access-denied routing -/

/-- Whether a materialized value is the `AccessDenied` variant. -/
def MaterializedTreeValue.isAccessDeniedValue : MaterializedTreeValue → Bool
  | .AccessDenied _ => true
  | _ => false

/-- Counterexample to claim C7 as stated: an entry whose left value is
access-denied, whose right side is absent and whose left path is a copied
source is skipped silently by `show_file_by_file_diff` — the suppression
check runs before the access-denied check, so no inline message is written
for this access-denied entry. -/
theorem file_by_file_access_denied_suppressed_counterexample :
    show_file_by_file_diff [⟨"s", "t"⟩] (fun _ => true)
      [⟨"s", "s",
        .ok (MaterializedTreeValue.AccessDenied "boom",
          MaterializedTreeValue.Absent), false⟩] = .ok [] := by
  rfl

/-- Claim C7, amended: a diff entry with an `AccessDenied` value on either
side makes `show_git_diff` fail hard with the access-denied error (the parts
are materialized before any suppression), while `show_color_words_diff`
emits the inline access-denied message (left side checked first) and
continues with the remaining entries; `show_file_by_file_diff` does the same
(right side checked first) except when the entry is a suppressed rename
delete — right side absent and left path a copied source — which is skipped
silently before the access-denied check.  Stream-level errors are hard in
these renderers and in summary and stat: no other error kind is
soft-handled. -/
theorem access_denied_error_routing
    (cs : List String) (e : DiffEntry) (rest : List DiffEntry) (n : Nat) :
    (∀ p v, git_diff_part p (MaterializedTreeValue.AccessDenied v) =
      .error (RenderErr.accessDenied p v)) ∧
    (∀ err v2, e.value = .ok (MaterializedTreeValue.AccessDenied err, v2) →
      show_git_diff_go cs (e :: rest) n =
        .error (RenderErr.accessDenied e.source err)) ∧
    (∀ err v1 part, e.value = .ok (v1, MaterializedTreeValue.AccessDenied err) →
      git_diff_part e.source v1 = .ok part →
      show_git_diff_go cs (e :: rest) n =
        .error (RenderErr.accessDenied e.target err)) ∧
    (∀ err v2, e.value = .ok (MaterializedTreeValue.AccessDenied err, v2) →
      show_color_words_diff (e :: rest) n =
        (show_color_words_diff rest n).map
          (fun evs => CWDiffEvent.accessDenied e.source err :: evs)) ∧
    (∀ err v1, v1.isAccessDeniedValue = false →
      e.value = .ok (v1, MaterializedTreeValue.AccessDenied err) →
      show_color_words_diff (e :: rest) n =
        (show_color_words_diff rest n).map
          (fun evs => CWDiffEvent.accessDenied e.target err :: evs)) ∧
    (∀ v1 v2, e.value = .ok (v1, v2) →
      v2.is_absent = true → cs.contains e.source = true →
      show_file_by_file_diff_go cs (e :: rest) =
        show_file_by_file_diff_go cs rest) ∧
    (∀ err v1, e.value = .ok (v1, MaterializedTreeValue.AccessDenied err) →
      show_file_by_file_diff_go cs (e :: rest) =
        (show_file_by_file_diff_go cs rest).map
          (fun evs => FBEvent.accessDenied e.target err :: evs)) ∧
    (∀ err v2, e.value = .ok (MaterializedTreeValue.AccessDenied err, v2) →
      v2.isAccessDeniedValue = false →
      (v2.is_absent && cs.contains e.source) = false →
      show_file_by_file_diff_go cs (e :: rest) =
        (show_file_by_file_diff_go cs rest).map
          (fun evs => FBEvent.accessDenied e.source err :: evs)) ∧
    (∀ err2, e.value = .error err2 →
      show_git_diff_go cs (e :: rest) n = .error (RenderErr.backend err2) ∧
      show_color_words_diff (e :: rest) n = .error (RenderErr.backend err2) ∧
      show_file_by_file_diff_go cs (e :: rest) = .error (RenderErr.backend err2) ∧
      show_diff_summary_go cs (e :: rest) = .error (RenderErr.backend err2) ∧
      ∀ lineDiff, show_diff_stat_collect lineDiff (e :: rest) =
        .error (RenderErr.backend err2)) := by
  refine ⟨fun p v => rfl, ?_, ?_, ?_, ?_, ?_, ?_, ?_, ?_⟩
  · intro err v2 hval
    simp only [show_git_diff_go, hval]
    rfl
  · intro err v1 part hval hpart
    simp only [show_git_diff_go, hval, show_git_diff_entry, hpart]
    simp [Bind.bind, Except.bind, git_diff_part]
  · intro err v2 hval
    simp only [show_color_words_diff, hval, show_color_words_entry]
    cases show_color_words_diff rest n <;> simp [Except.map]
  · intro err v1 hv1 hval
    simp only [show_color_words_diff, hval]
    have hentry : show_color_words_entry e.source e.target v1
        (MaterializedTreeValue.AccessDenied err) n =
          .ok [CWDiffEvent.accessDenied e.target err] := by
      cases v1 <;> simp [show_color_words_entry] <;>
        simp [MaterializedTreeValue.isAccessDeniedValue] at hv1
    rw [hentry]
    cases show_color_words_diff rest n <;> simp [Except.map]
  · intro v1 v2 hval habs hcs
    simp only [show_file_by_file_diff_go, hval, habs, hcs, Bool.and_self,
      if_true]
  · intro err v1 hval
    simp only [show_file_by_file_diff_go, hval]
    have habs : (MaterializedTreeValue.AccessDenied err).is_absent = false := rfl
    rw [habs]
    simp only [Bool.false_and, Bool.false_eq_true, if_false]
    have hentry : show_file_by_file_entry e.source e.target v1
        (MaterializedTreeValue.AccessDenied err) =
          .ok [FBEvent.accessDenied e.target err] := by
      cases v1 <;> rfl
    rw [hentry]
    cases show_file_by_file_diff_go cs rest <;> simp [Except.map]
  · intro err v2 hval hv2 hsupp
    simp only [show_file_by_file_diff_go, hval, hsupp, Bool.false_eq_true,
      if_false]
    have hentry : show_file_by_file_entry e.source e.target
        (MaterializedTreeValue.AccessDenied err) v2 =
          .ok [FBEvent.accessDenied e.source err] := by
      cases v2 <;> simp [show_file_by_file_entry] <;>
        simp [MaterializedTreeValue.isAccessDeniedValue] at hv2
    rw [hentry]
    cases show_file_by_file_diff_go cs rest <;> simp [Except.map]
  · intro err2 hval
    refine ⟨?_, ?_, ?_, ?_, ?_⟩ <;>
      intros <;>
      simp only [show_git_diff_go, show_color_words_diff,
        show_file_by_file_diff_go, show_diff_summary_go,
        show_diff_stat_collect, hval]

/-- Witness for C7 at a concrete input: a left-access-denied entry renders as
a single inline message in color-words mode. -/
theorem access_denied_error_routing_witness :
    show_color_words_diff
      [⟨"p", "p",
        .ok (MaterializedTreeValue.AccessDenied "boom",
          MaterializedTreeValue.File "i" false (bytes "x")), false⟩] 3 =
      .ok [CWDiffEvent.accessDenied "p" "boom"] := by
  have h := (access_denied_error_routing []
    ⟨"p", "p",
      .ok (MaterializedTreeValue.AccessDenied "boom",
        MaterializedTreeValue.File "i" false (bytes "x")), false⟩ [] 3).2.2.2.1
    "boom" (MaterializedTreeValue.File "i" false (bytes "x")) rfl
  rw [h]
  rfl

/-! ## Claim C8: default diff format resolution (`diff_util.rs` lines
94-204) -/

/-- `CommandNameAndArgs` (from `crate::config`): a plain string name or a
structured command. -/
inductive CommandNameAndArgs where
  | Str (name : String)
  | Args (command : List String)
deriving DecidableEq, Repr

/-- `ExternalMergeTool` (from `crate::merge_tools`), reduced to the data the
format resolution observes. -/
structure ExternalMergeTool where
  program : String
deriving DecidableEq, Repr

/-- `DiffFormat` (`diff_util.rs` lines 94-103). -/
inductive DiffFormat where
  | Summary
  | Stat
  | Types
  | NameOnly
  | Git (context : Nat)
  | ColorWords (context : Nat)
  | Tool (tool : ExternalMergeTool)
deriving DecidableEq, Repr

/-- `DEFAULT_CONTEXT_LINES` (`diff_util.rs` line 52). -/
def DEFAULT_CONTEXT_LINES : Nat := 3

/-- The three config keys `default_diff_format` consults. -/
structure DiffConfig where
  uiDiffTool : Option CommandNameAndArgs
  uiDiffFormat : Option String
  diffFormat : Option String

/-- `default_diff_format` (`diff_util.rs` lines 167-204).
`toolConfig` models `merge_tools::get_external_tool_config` and
`withDiffArgs` models `ExternalMergeTool::with_diff_args` (both external to
this file).  An `ui.diff.tool` value always yields a `Tool` format; otherwise
the name comes from `ui.diff.format`, then the legacy `diff.format`, then
`"color-words"`, and must be one of the six recognized names. -/
def default_diff_format (toolConfig : String → Option ExternalMergeTool)
    (withDiffArgs : CommandNameAndArgs → ExternalMergeTool)
    (config : DiffConfig) (num_context_lines : Option Nat) :
    Except String DiffFormat :=
  match config.uiDiffTool with
  | some args =>
    let tool :=
      (match args with
       | CommandNameAndArgs.Str name => toolConfig name
       | _ => none).getD (withDiffArgs args)
    .ok (DiffFormat.Tool tool)
  | none =>
    let name :=
      match config.uiDiffFormat with
      | some nm => nm
      | none =>
        match config.diffFormat with
        | some nm => nm
        | none => "color-words"
    match name with
    | "summary" => .ok DiffFormat.Summary
    | "types" => .ok DiffFormat.Types
    | "name-only" => .ok DiffFormat.NameOnly
    | "git" =>
      .ok (DiffFormat.Git (num_context_lines.getD DEFAULT_CONTEXT_LINES))
    | "color-words" =>
      .ok (DiffFormat.ColorWords (num_context_lines.getD DEFAULT_CONTEXT_LINES))
    | "stat" => .ok DiffFormat.Stat
    | other => .error ("invalid diff format: " ++ other)

/-- Claim C8: resolution order `ui.diff.tool` → `ui.diff.format` →
legacy `diff.format` → `"color-words"`; a configured tool always wins and
yields a `Tool` format; `ui.diff.format` shadows `diff.format`; the
recognized names are exactly summary, types, name-only, git, color-words and
stat (with git/color-words taking the context, default 3), and any other
name is a configuration error. -/
theorem default_diff_format_resolution
    (toolConfig : String → Option ExternalMergeTool)
    (withDiffArgs : CommandNameAndArgs → ExternalMergeTool)
    (n : Option Nat) :
    (∀ cfg args, cfg.uiDiffTool = some args →
      ∃ t, default_diff_format toolConfig withDiffArgs cfg n =
        .ok (DiffFormat.Tool t)) ∧
    (∀ nm d d', default_diff_format toolConfig withDiffArgs ⟨none, some nm, d⟩ n =
      default_diff_format toolConfig withDiffArgs ⟨none, some nm, d'⟩ n) ∧
    (∀ nm, default_diff_format toolConfig withDiffArgs ⟨none, none, some nm⟩ n =
      default_diff_format toolConfig withDiffArgs ⟨none, some nm, none⟩ n) ∧
    (default_diff_format toolConfig withDiffArgs ⟨none, none, none⟩ n =
      .ok (DiffFormat.ColorWords (n.getD DEFAULT_CONTEXT_LINES))) ∧
    (∀ nm d,
      (∃ f, default_diff_format toolConfig withDiffArgs ⟨none, some nm, d⟩ n =
        .ok f) ↔
      nm ∈ ["summary", "types", "name-only", "git", "color-words", "stat"]) ∧
    (∀ d,
      default_diff_format toolConfig withDiffArgs ⟨none, some "summary", d⟩ n =
        .ok DiffFormat.Summary ∧
      default_diff_format toolConfig withDiffArgs ⟨none, some "types", d⟩ n =
        .ok DiffFormat.Types ∧
      default_diff_format toolConfig withDiffArgs ⟨none, some "name-only", d⟩ n =
        .ok DiffFormat.NameOnly ∧
      default_diff_format toolConfig withDiffArgs ⟨none, some "git", d⟩ n =
        .ok (DiffFormat.Git (n.getD DEFAULT_CONTEXT_LINES)) ∧
      default_diff_format toolConfig withDiffArgs ⟨none, some "color-words", d⟩ n =
        .ok (DiffFormat.ColorWords (n.getD DEFAULT_CONTEXT_LINES)) ∧
      default_diff_format toolConfig withDiffArgs ⟨none, some "stat", d⟩ n =
        .ok DiffFormat.Stat) := by
  refine ⟨?_, ?_, ?_, rfl, ?_, ?_⟩
  · intro cfg args htool
    unfold default_diff_format
    rw [htool]
    exact ⟨_, rfl⟩
  · intro nm d d'
    rfl
  · intro nm
    rfl
  · intro nm d
    constructor
    · intro ⟨f, hf⟩
      unfold default_diff_format at hf
      dsimp only at hf
      split at hf <;>
        simp_all
    · intro hmem
      simp only [List.mem_cons, List.mem_singleton, List.not_mem_nil,
        or_false] at hmem
      rcases hmem with rfl | rfl | rfl | rfl | rfl | rfl <;> exact ⟨_, rfl⟩
  · intro d
    exact ⟨rfl, rfl, rfl, rfl, rfl, rfl⟩

/-- Witness for C8 at a concrete input: with no tool and no format keys set,
the default is color-words with context 3. -/
theorem default_diff_format_resolution_witness :
    default_diff_format (fun _ => none)
      (fun _ => ⟨"meld"⟩) ⟨none, none, none⟩ none =
      .ok (DiffFormat.ColorWords 3) :=
  (default_diff_format_resolution (fun _ => none)
    (fun _ => ⟨"meld"⟩) none).2.2.2.1

/-! ## Claim C10: stat deletion flag and rename-source omission -/

theorem show_diff_stat_totals_foldl (unresolved : List String)
    (stats : List DiffStat) :
    ∀ acc : Nat × Nat × Nat,
    stats.foldl
      (fun acc s =>
        if s.is_deletion && unresolved.contains s.path then acc
        else (acc.1 + 1, acc.2.1 + s.added, acc.2.2 + s.removed)) acc =
    (acc.1 + (show_diff_stat_rows stats unresolved).length,
     acc.2.1 + ((show_diff_stat_rows stats unresolved).map DiffStat.added).sum,
     acc.2.2 + ((show_diff_stat_rows stats unresolved).map DiffStat.removed).sum) := by
  induction stats with
  | nil => intro acc; simp [show_diff_stat_rows]
  | cons st rest ih =>
    intro acc
    simp only [List.foldl_cons, show_diff_stat_rows, List.filter_cons]
    by_cases hcond : (st.is_deletion && unresolved.contains st.path) = true
    · simp only [hcond, if_true, Bool.not_true, Bool.false_eq_true, if_false]
      simpa [show_diff_stat_rows] using ih acc
    · simp only [hcond, Bool.false_eq_true, if_false]
      rw [ih]
      simp only [hcond, Bool.not_false, Bool.not_true, if_true,
        Bool.false_eq_true, if_false, List.length_cons, List.map_cons,
        List.sum_cons, Prod.mk.injEq, reduceIte, show_diff_stat_rows]
      omega

/-- Claim C10: a stat row's `is_deletion` flag is set iff the right side's
diff content is byte-empty — so an entry whose right side is a present file
with empty content is also flagged — and any row whose flag is set and whose
path was recorded as a rename source is omitted from the output rows and
from the totals (which sum exactly over the surviving rows). -/
theorem stat_deletion_flag_and_rename_omission :
    (∀ (lineDiff : Content → Content → List DiffHunk) (p : String)
        (lc rc : FileContent),
      ((get_diff_stat lineDiff p lc rc).is_deletion = true ↔ rc.contents = [])) ∧
    (∀ (p id : String) (exec : Bool),
      (MaterializedTreeValue.File id exec []).is_present = true ∧
      diff_content p (MaterializedTreeValue.File id exec []) =
        .ok ⟨false, []⟩) ∧
    (∀ (stats : List DiffStat) (unresolved : List String) (st : DiffStat),
      st ∈ stats → st.is_deletion = true →
      unresolved.contains st.path = true →
      st ∉ show_diff_stat_rows stats unresolved) ∧
    (∀ (stats : List DiffStat) (unresolved : List String),
      show_diff_stat_totals stats unresolved =
        ((show_diff_stat_rows stats unresolved).length,
         ((show_diff_stat_rows stats unresolved).map DiffStat.added).sum,
         ((show_diff_stat_rows stats unresolved).map DiffStat.removed).sum)) := by
  refine ⟨?_, ?_, ?_, ?_⟩
  · intro lineDiff p lc rc
    simp [get_diff_stat, List.isEmpty_iff]
  · intro p id exec
    exact ⟨rfl, rfl⟩
  · intro stats unresolved st hmem hdel hcont
    simp only [show_diff_stat_rows, List.mem_filter, hdel, hcont,
      Bool.and_self, Bool.not_true]
    intro hk
    exact absurd hk.2 (by simp)
  · intro stats unresolved
    unfold show_diff_stat_totals
    rw [show_diff_stat_totals_foldl]
    simp

/-- Witness for C10 at a concrete input: a file modified to be empty is
flagged as a deletion. -/
theorem stat_deletion_flag_witness :
    (get_diff_stat (fun _ _ => []) "p" ⟨false, bytes "x"⟩ ⟨false, []⟩).is_deletion =
      true :=
  (stat_deletion_flag_and_rename_omission.1 (fun _ _ => []) "p"
    ⟨false, bytes "x"⟩ ⟨false, []⟩).mpr rfl

end DiffUtil
